import Mathlib

/-!
# Verification of the double inverted pendulum PD-tuning pipeline

A shallow embedding, over `ℚ`, of the gain-space search of
`PD_Tuning/CPU_Iterative_Tuning/cpu_pd_tune_funs.py`, the RK4 integrator of
`threads_/numsim/libs/numsim_steps.py`, and the delayed discrete LQR / H∞
synthesis helpers of
`threads_/numsim/libs/state_space_fs/control_tuning/{lqr_delay,h_inf_delay}.py`.

Numeric values (`numpy` floats) are modelled as rationals.  Purely numerical
library routines (`np.linalg.eigvals`, `np.linalg.inv`,
`scipy.linalg.solve_discrete_are`) and the plant update of
`num_sim_for_tune.num_sim_step_pd_tune` composed with the random timestep draw
are abstracted as explicit functional parameters, so every theorem quantifies
over all possible numerics while the surrounding control flow and data
plumbing are embedded exactly.
-/

attribute [local semireducible] Rat.mul Rat.inv Rat.sub Rat.add

namespace DIPS

/-- The 4×1 numpy state column vector (`phi1, phi2, dphi1, dphi2`). -/
abbrev Vec4 := Fin 4 → ℚ

/-- Floor of a rational: `q.num / q.den` with euclidean integer division
(this is `Rat.floor_def'`); spelled out so that kernel reduction works. -/
def ratFloor (q : ℚ) : ℤ := q.num / q.den

/-- Python's built-in `round` (round-half-to-even, "banker's rounding"),
on rationals. -/
def pyRound (q : ℚ) : ℤ :=
  if q - ratFloor q < 1 / 2 then ratFloor q
  else if 1 / 2 < q - ratFloor q then ratFloor q + 1
  else if ratFloor q % 2 = 0 then ratFloor q else ratFloor q + 1

/-- `round` results used as iteration / replication counts: Python's
`range(n)` and `[0] * n` both treat a negative `n` as `0`. -/
def natRound (q : ℚ) : ℕ := (pyRound q).toNat

/-- One element of `data_stream`: the source appends
`[next_x, d_next_x, u, time_c]`; we keep the post-step state `x_next` and the
applied input `u`, and additionally record two ghost observations used by the
theorems: `ddq`, the control value computed at this tick, and `stackLen`, the
length of `ddq_stack` right after this tick's `append`. -/
structure StreamEntry where
  x_next : Vec4
  u : ℚ
  ddq : ℚ
  stackLen : ℕ
deriving DecidableEq

/-- Default `StreamEntry` used with `List.getD`. -/
def dummyEntry : StreamEntry := ⟨fun _ => 0, 0, 0, 0⟩

/-- `ddq = -(K_p * phi_1 + K_d * next_x[2][0])` from `_PD_CL_Simulator`. -/
def ctrl_ddq (K_p K_d : ℚ) (x : Vec4) : ℚ := -(K_p * x 0 + K_d * x 2)

/-- The `for i in range(n)` loop of `_PD_CL_Simulator`.

`step i x u` abstracts
`num_sim_for_tune.num_sim_step_pd_tune(sys_consts, x, u, rnd_ts)[0]` at tick
`i`, i.e. the plant update for one fixed realization of the random timestep
draws; theorems quantify over `step`.  `fuel` is the number of loop
iterations still to run, `i` the current tick, `stack` is `ddq_stack`, and
`acc` is `data_stream` built so far. -/
def simLoop (step : ℕ → Vec4 → ℚ → Vec4) (K_p K_d max_angle_rad : ℚ)
    (delay_in_frames : ℕ) :
    ℕ → ℕ → Vec4 → List ℚ → List StreamEntry → List StreamEntry × Bool
  | 0, _, _, _, acc => (acc, true)
  | fuel + 1, i, x, stack, acc =>
    if max_angle_rad < |x 0| then (acc, false)
    else
      let ddq := ctrl_ddq K_p K_d x
      let ddq_stack := stack ++ [ddq]
      let u := ddq_stack.getD (ddq_stack.length - (1 + delay_in_frames)) 0
      let x' := step i x u
      simLoop step K_p K_d max_angle_rad delay_in_frames fuel (i + 1) x'
        ddq_stack (acc ++ [⟨x', u, ddq, ddq_stack.length⟩])

/-- The `(K_p, K_d, data_stream, finish_flag)` tuple returned by
`_PD_CL_Simulator`. -/
structure RunResult where
  K_p : ℚ
  K_d : ℚ
  data_stream : List StreamEntry
  finish_flag : Bool
deriving DecidableEq

instance {ε α : Type} [DecidableEq ε] [DecidableEq α] :
    DecidableEq (Except ε α) := fun a b =>
  match a, b with
  | .error e, .error e' => decidable_of_iff (e = e') (by simp)
  | .ok x, .ok y => decidable_of_iff (x = y) (by simp)
  | .error _, .ok _ => isFalse fun h => by cases h
  | .ok _, .error _ => isFalse fun h => by cases h

/-- `_PD_CL_Simulator`: `n = round(run_time / Ts)` ticks,
`delay_in_frames = round(delay / Ts)`, `ddq_stack` initialized to
`[0] * delay_in_frames`. -/
def PD_CL_Simulator (step : ℕ → Vec4 → ℚ → Vec4) (x_0 : Vec4)
    (K_p K_d delay Ts run_time max_angle_rad : ℚ) : RunResult :=
  let n := natRound (run_time / Ts)
  let delay_in_frames := natRound (delay / Ts)
  let r := simLoop step K_p K_d max_angle_rad delay_in_frames n 0 x_0
    (List.replicate delay_in_frames 0) []
  ⟨K_p, K_d, r.1, r.2⟩

/-- The `args_list` built by the two nested `for` loops of
`_iterate_in_range` (row-major Cartesian product), restricted to the
`(Kp_phi1, Kd_phi1)` coordinates that vary. -/
def args_list (Kp_phi1_range Kd_phi1_range : List ℚ) : List (ℚ × ℚ) :=
  Kp_phi1_range.flatMap fun Kp => Kd_phi1_range.map fun Kd => (Kp, Kd)

/-- `_iterate_in_range`: `pool.map(_PD_CL_Simulator, args_list, ...)` returns
one result per argument tuple, in submission order. -/
def iterate_in_range (step : ℕ → Vec4 → ℚ → Vec4) (x_0 : Vec4)
    (Kp_phi1_range Kd_phi1_range : List ℚ)
    (delay Ts run_time max_angle_rad : ℚ) : List RunResult :=
  (args_list Kp_phi1_range Kd_phi1_range).map fun p =>
    PD_CL_Simulator step x_0 p.1 p.2 delay Ts run_time max_angle_rad

/-- One entry of `valid_results_data` in `calc_PD_scores`.  The source field
`phi1_square_sum` actually holds `phi1_square_sum / len(data_stream)` (the
mean squared angle), as in the source dictionary. -/
structure ScoredResult where
  Kp_phi1 : ℚ
  Kd_phi1 : ℚ
  time : ℚ
  finish_flag : Bool
  phi1_square_sum : ℚ
  data_stream : List StreamEntry

/-- Default `ScoredResult` used with `List.getD`. -/
def dummyScored : ScoredResult := ⟨0, 0, 0, true, 0, []⟩

/-- `phi1_square_sum += next_x[0][0]**2` accumulated over a data stream. -/
def sumSqPhi1 (l : List StreamEntry) : ℚ := (l.map fun e => (e.x_next 0) ^ 2).sum

/-- Scoring of one run inside `calc_PD_scores`.  The division
`phi1_square_sum / len(data_stream)` raises `ZeroDivisionError` in Python
when the stream is empty; the embedding makes the operation fallible and
returns `none` in exactly that case. -/
def score_run (simTs : ℚ) (r : RunResult) : Option ScoredResult :=
  if r.data_stream.length = 0 then none
  else
    some ⟨r.K_p, r.K_d, (r.data_stream.length : ℚ) * simTs, r.finish_flag,
      sumSqPhi1 r.data_stream / (r.data_stream.length : ℚ), r.data_stream⟩

/-- The scoring `for` loop of `calc_PD_scores` over all runs: it raises
(returns `none`) as soon as one run has an empty `data_stream`. -/
def map_scores (simTs : ℚ) : List RunResult → Option (List ScoredResult)
  | [] => some []
  | r :: rest =>
    match score_run simTs r with
    | none => none
    | some s => (map_scores simTs rest).map fun ys => s :: ys

/-- The sort key of `sorted(valid_results_data, key=lambda x: x["phi1_square_sum"])`. -/
def scoreLE (a b : ScoredResult) : Prop := a.phi1_square_sum ≤ b.phi1_square_sum

instance : DecidableRel scoreLE := fun a b =>
  inferInstanceAs (Decidable (a.phi1_square_sum ≤ b.phi1_square_sum))

instance : IsTotal ScoredResult scoreLE := ⟨fun a b => le_total a.phi1_square_sum b.phi1_square_sum⟩

instance : IsTrans ScoredResult scoreLE := ⟨fun _ _ _ => le_trans⟩

/-- `calc_PD_scores`: score every run, then `sorted(...)` ascending by
`phi1_square_sum`.  Python's `sorted` is stable; `List.insertionSort` is the
stable sort of the model. -/
def calc_PD_scores (runs : List RunResult) (simTs : ℚ) :
    Option (List ScoredResult) :=
  (map_scores simTs runs).map fun ys => ys.insertionSort scoreLE

/-! ## Helper lemmas about `List.getD` -/

theorem getD_map {α β : Type} (f : α → β) (dα : α) (dβ : β) :
    ∀ (l : List α) (n : ℕ), n < l.length → (l.map f).getD n dβ = f (l.getD n dα) := by
  intro l
  induction l with
  | nil => intro n h; simp at h
  | cons a l ih =>
    intro n h
    cases n with
    | zero => simp
    | succ n =>
      simp only [List.map_cons, List.getD_cons_succ]
      exact ih n (by simpa using h)

theorem getD_replicate0 (k m : ℕ) : (List.replicate k (0 : ℚ)).getD m 0 = 0 := by
  induction k generalizing m with
  | zero => simp
  | succ k ih =>
    cases m with
    | zero => simp
    | succ m => rw [List.replicate_succ, List.getD_cons_succ]; exact ih m

/-- Reading position `t` of the delay stack `[0] * k ++ map ddq l`. -/
theorem stack_getD (k : ℕ) (l : List StreamEntry) (t : ℕ) (ht : t < l.length) :
    (List.replicate k (0 : ℚ) ++ l.map fun e => e.ddq).getD t 0 =
      if t < k then 0 else (l.getD (t - k) dummyEntry).ddq := by
  by_cases h : t < k
  · rw [if_pos h, List.getD_append _ _ _ _ (by rw [List.length_replicate]; exact h),
      getD_replicate0]
  · rw [if_neg h,
      List.getD_append_right _ _ _ _ (by simpa using Nat.le_of_not_lt h)]
    simp only [List.length_replicate]
    exact getD_map _ dummyEntry 0 l (t - k) (by omega)

/-! ## The delay-buffer indexing invariant (claim C1) -/

/-- An entry `e` whose applied input was read at offset `-(1 + k)` of the
just-pushed stack satisfies the delayed-input equation at position
`acc.length`. -/
theorem step_entry_u (k : ℕ) (acc : List StreamEntry) (e : StreamEntry)
    (stack : List ℚ)
    (hstack : stack = List.replicate k 0 ++ (acc.map fun x => x.ddq))
    (hu : e.u = (stack ++ [e.ddq]).getD ((stack ++ [e.ddq]).length - (1 + k)) 0) :
    ((acc ++ [e]).getD acc.length dummyEntry).u =
      if acc.length < k then 0
      else ((acc ++ [e]).getD (acc.length - k) dummyEntry).ddq := by
  rw [List.getD_append_right _ _ _ _ (le_refl acc.length), Nat.sub_self,
    List.getD_cons_zero, hu, hstack]
  have hmap :
      (List.replicate k (0 : ℚ) ++ (acc.map fun x => x.ddq)) ++ [e.ddq] =
        List.replicate k 0 ++ ((acc ++ [e]).map fun x => x.ddq) := by
    simp [List.append_assoc]
  rw [hmap]
  have hL :
      (List.replicate k (0 : ℚ) ++ ((acc ++ [e]).map fun x => x.ddq)).length =
        k + acc.length + 1 := by
    simp
    omega
  rw [hL]
  have hidx : k + acc.length + 1 - (1 + k) = acc.length := by omega
  rw [hidx]
  exact stack_getD k (acc ++ [e]) acc.length (by simp)

/-- The delayed-input equation at positions `< acc.length` is preserved by
appending an entry. -/
theorem prefix_entry_u (k : ℕ) (acc : List StreamEntry) (e : StreamEntry)
    (t : ℕ) (hlt : t < acc.length)
    (h : (acc.getD t dummyEntry).u =
      if t < k then 0 else (acc.getD (t - k) dummyEntry).ddq) :
    ((acc ++ [e]).getD t dummyEntry).u =
      if t < k then 0 else ((acc ++ [e]).getD (t - k) dummyEntry).ddq := by
  rw [List.getD_append _ _ _ _ hlt,
    List.getD_append _ _ _ _ (lt_of_le_of_lt (Nat.sub_le t k) hlt)]
  exact h

theorem simLoop_applied_delay (step : ℕ → Vec4 → ℚ → Vec4)
    (K_p K_d mx : ℚ) (k : ℕ) :
    ∀ (fuel i : ℕ) (x : Vec4) (stack : List ℚ) (acc : List StreamEntry),
      stack = List.replicate k 0 ++ (acc.map fun e => e.ddq) →
      (∀ t, t < acc.length → (acc.getD t dummyEntry).u =
        if t < k then 0 else (acc.getD (t - k) dummyEntry).ddq) →
      ∀ t, t < (simLoop step K_p K_d mx k fuel i x stack acc).1.length →
        ((simLoop step K_p K_d mx k fuel i x stack acc).1.getD t dummyEntry).u =
          if t < k then 0
          else ((simLoop step K_p K_d mx k fuel i x stack acc).1.getD
            (t - k) dummyEntry).ddq := by
  intro fuel
  induction fuel with
  | zero =>
    intro i x stack acc _ hP
    simp only [simLoop]
    exact hP
  | succ fuel ih =>
    intro i x stack acc hstack hP
    by_cases hdiv : mx < |x 0|
    · simp only [simLoop, if_pos hdiv]
      exact hP
    · simp only [simLoop, if_neg hdiv]
      refine ih (i + 1) _ _ _ ?_ ?_
      · rw [hstack]
        simp [List.append_assoc]
      · intro t ht
        have ht2 : t < acc.length + 1 := by simpa using ht
        rcases Nat.lt_or_ge t acc.length with hlt | hge
        · exact prefix_entry_u k acc _ t hlt (hP t hlt)
        · have hteq : t = acc.length := by omega
          subst hteq
          exact step_entry_u k acc _ stack hstack rfl

/-- **C1.** For every delay with `delay_steps = k = round(delay / Ts) ≥ 0`, the
input `u` applied at tick `t` of `_PD_CL_Simulator` equals the control value
`ddq` computed at tick `t − k`, and equals `0` (the zero-filled initial
`ddq_stack`) for every tick `t < k`; for `k = 0` the applied input is the
control value computed at the same tick. -/
theorem applied_input_delay_correct (step : ℕ → Vec4 → ℚ → Vec4) (x_0 : Vec4)
    (K_p K_d delay Ts run_time max_angle_rad : ℚ) (t : ℕ)
    (ht : t < (PD_CL_Simulator step x_0 K_p K_d delay Ts run_time
      max_angle_rad).data_stream.length) :
    ((PD_CL_Simulator step x_0 K_p K_d delay Ts run_time
        max_angle_rad).data_stream.getD t dummyEntry).u =
      if t < natRound (delay / Ts) then 0
      else ((PD_CL_Simulator step x_0 K_p K_d delay Ts run_time
        max_angle_rad).data_stream.getD (t - natRound (delay / Ts))
          dummyEntry).ddq := by
  have h := simLoop_applied_delay step K_p K_d max_angle_rad
    (natRound (delay / Ts)) (natRound (run_time / Ts)) 0 x_0
    (List.replicate (natRound (delay / Ts)) 0) [] (by simp)
    (by intro t ht; simp at ht)
  simp only [PD_CL_Simulator] at ht ⊢
  exact h t ht

/-- Witness for C1 at a concrete configuration (`delay_steps = 1`, two
ticks survive). -/
def step0 : ℕ → Vec4 → ℚ → Vec4 := fun _ x u => fun j => if j = 0 then x 0 + u else x j

/-- Concrete initial state `phi1 = 1/2`, all other coordinates `0`. -/
def x0w : Vec4 := fun j => if j = 0 then 1 / 2 else 0

theorem applied_input_delay_correct_witness :
    1 < (PD_CL_Simulator step0 x0w 1 0 1 1 2 1).data_stream.length ∧
    ((PD_CL_Simulator step0 x0w 1 0 1 1 2 1).data_stream.getD 1 dummyEntry).u =
      if 1 < natRound ((1 : ℚ) / 1) then 0
      else ((PD_CL_Simulator step0 x0w 1 0 1 1 2 1).data_stream.getD
        (1 - natRound ((1 : ℚ) / 1)) dummyEntry).ddq :=
  ⟨by decide, applied_input_delay_correct step0 x0w 1 0 1 1 2 1 1 (by decide)⟩

/-! ## Growth of the delay buffer (claim C8) -/

theorem simLoop_stackLen (step : ℕ → Vec4 → ℚ → Vec4)
    (K_p K_d mx : ℚ) (k : ℕ) :
    ∀ (fuel i : ℕ) (x : Vec4) (stack : List ℚ) (acc : List StreamEntry),
      stack.length = k + acc.length →
      (∀ t, t < acc.length → (acc.getD t dummyEntry).stackLen = k + t + 1) →
      ∀ t, t < (simLoop step K_p K_d mx k fuel i x stack acc).1.length →
        ((simLoop step K_p K_d mx k fuel i x stack acc).1.getD t
          dummyEntry).stackLen = k + t + 1 := by
  intro fuel
  induction fuel with
  | zero =>
    intro i x stack acc _ hP
    simp only [simLoop]
    exact hP
  | succ fuel ih =>
    intro i x stack acc hlen hP
    by_cases hdiv : mx < |x 0|
    · simp only [simLoop, if_pos hdiv]
      exact hP
    · simp only [simLoop, if_neg hdiv]
      refine ih (i + 1) _ _ _ ?_ ?_
      · simp [hlen]
        omega
      · intro t ht
        have ht2 : t < acc.length + 1 := by simpa using ht
        rcases Nat.lt_or_ge t acc.length with hlt | hge
        · rw [List.getD_append _ _ _ _ hlt]
          exact hP t hlt
        · have hteq : t = acc.length := by omega
          subst hteq
          rw [List.getD_append_right _ _ _ _ (le_refl acc.length),
            Nat.sub_self, List.getD_cons_zero]
          simp [hlen]

/-- **C8 (amended).** The delay buffer `ddq_stack` is never popped: each tick
appends one value, so right after tick `t` it holds
`delay_in_frames + t + 1` values, not a constant `N = round(delay / Ts)`;
only the read offset `-(1 + delay_in_frames)` realizes the lag of exactly
`delay_in_frames` steps. -/
theorem ddq_stack_grows (step : ℕ → Vec4 → ℚ → Vec4) (x_0 : Vec4)
    (K_p K_d delay Ts run_time max_angle_rad : ℚ) (t : ℕ)
    (ht : t < (PD_CL_Simulator step x_0 K_p K_d delay Ts run_time
      max_angle_rad).data_stream.length) :
    ((PD_CL_Simulator step x_0 K_p K_d delay Ts run_time
        max_angle_rad).data_stream.getD t dummyEntry).stackLen =
      natRound (delay / Ts) + t + 1 := by
  have h := simLoop_stackLen step K_p K_d max_angle_rad
    (natRound (delay / Ts)) (natRound (run_time / Ts)) 0 x_0
    (List.replicate (natRound (delay / Ts)) 0) [] (by simp)
    (by intro t ht; simp at ht)
  simp only [PD_CL_Simulator] at ht ⊢
  exact h t ht

theorem ddq_stack_grows_witness :
    0 < (PD_CL_Simulator step0 x0w 1 0 1 1 2 1).data_stream.length ∧
    ((PD_CL_Simulator step0 x0w 1 0 1 1 2 1).data_stream.getD 0
        dummyEntry).stackLen = natRound ((1 : ℚ) / 1) + 0 + 1 :=
  ⟨by decide, ddq_stack_grows step0 x0w 1 0 1 1 2 1 0 (by decide)⟩

/-- **C8 counterexample.** In a concrete run with
`N = round(delay / sample_period) = 1` the buffer does not hold exactly `N`
values after every tick: after tick `0` it already holds `2`. -/
theorem ddq_stack_not_constant :
    ¬ (∀ t, t < (PD_CL_Simulator step0 x0w 1 0 1 1 2 1).data_stream.length →
        ((PD_CL_Simulator step0 x0w 1 0 1 1 2 1).data_stream.getD t
          dummyEntry).stackLen = natRound ((1 : ℚ) / 1)) := by
  intro h
  exact absurd (h 0 (by decide)) (by decide)

/-! ## The divergence check (claim C3) -/

/-- The state on which tick `t`'s `abs(phi_1) > max_angle_rad` test is
evaluated: the initial state for `t = 0`, otherwise the post-step state
recorded at tick `t - 1`. -/
def preState (x_0 : Vec4) (l : List StreamEntry) (t : ℕ) : Vec4 :=
  if t = 0 then x_0 else (l.getD (t - 1) dummyEntry).x_next

theorem preState_zero (x_0 : Vec4) (l : List StreamEntry) :
    preState x_0 l 0 = x_0 := rfl

theorem preState_cons (x_0 : Vec4) (e : StreamEntry) (l : List StreamEntry)
    (t : ℕ) : preState x_0 (e :: l) (t + 1) = preState e.x_next l t := by
  cases t with
  | zero => simp [preState]
  | succ t => simp [preState]

theorem simLoop_divergence (step : ℕ → Vec4 → ℚ → Vec4)
    (K_p K_d mx : ℚ) (k : ℕ) :
    ∀ (fuel i : ℕ) (x : Vec4) (stack : List ℚ) (acc : List StreamEntry),
      ∃ tail,
        (simLoop step K_p K_d mx k fuel i x stack acc).1 = acc ++ tail ∧
        ((simLoop step K_p K_d mx k fuel i x stack acc).2 = true →
          tail.length = fuel ∧
          ∀ t, t < tail.length → ¬ mx < |preState x tail t 0|) ∧
        ((simLoop step K_p K_d mx k fuel i x stack acc).2 = false →
          tail.length < fuel ∧
          mx < |preState x tail tail.length 0| ∧
          ∀ t, t < tail.length → ¬ mx < |preState x tail t 0|) := by
  intro fuel
  induction fuel with
  | zero =>
    intro i x stack acc
    refine ⟨[], by simp [simLoop], ?_, ?_⟩
    · intro _
      exact ⟨rfl, by intro t ht; simp at ht⟩
    · intro hf
      simp [simLoop] at hf
  | succ fuel ih =>
    intro i x stack acc
    by_cases hdiv : mx < |x 0|
    · refine ⟨[], by simp [simLoop, hdiv], ?_, ?_⟩
      · intro hf
        simp [simLoop, hdiv] at hf
      · intro _
        refine ⟨Nat.succ_pos fuel, ?_, by intro t ht; simp at ht⟩
        simpa [preState_zero] using hdiv
    · obtain ⟨tail', heq, htrue, hfalse⟩ := ih (i + 1)
        (step i x ((stack ++ [ctrl_ddq K_p K_d x]).getD
          ((stack ++ [ctrl_ddq K_p K_d x]).length - (1 + k)) 0))
        (stack ++ [ctrl_ddq K_p K_d x])
        (acc ++ [⟨step i x ((stack ++ [ctrl_ddq K_p K_d x]).getD
            ((stack ++ [ctrl_ddq K_p K_d x]).length - (1 + k)) 0),
          (stack ++ [ctrl_ddq K_p K_d x]).getD
            ((stack ++ [ctrl_ddq K_p K_d x]).length - (1 + k)) 0,
          ctrl_ddq K_p K_d x, (stack ++ [ctrl_ddq K_p K_d x]).length⟩])
      have hres :
          simLoop step K_p K_d mx k (fuel + 1) i x stack acc =
            simLoop step K_p K_d mx k fuel (i + 1)
              (step i x ((stack ++ [ctrl_ddq K_p K_d x]).getD
                ((stack ++ [ctrl_ddq K_p K_d x]).length - (1 + k)) 0))
              (stack ++ [ctrl_ddq K_p K_d x])
              (acc ++ [⟨step i x ((stack ++ [ctrl_ddq K_p K_d x]).getD
                  ((stack ++ [ctrl_ddq K_p K_d x]).length - (1 + k)) 0),
                (stack ++ [ctrl_ddq K_p K_d x]).getD
                  ((stack ++ [ctrl_ddq K_p K_d x]).length - (1 + k)) 0,
                ctrl_ddq K_p K_d x, (stack ++ [ctrl_ddq K_p K_d x]).length⟩]) := by
        simp only [simLoop, if_neg hdiv]
      rw [hres]
      refine ⟨⟨step i x ((stack ++ [ctrl_ddq K_p K_d x]).getD
          ((stack ++ [ctrl_ddq K_p K_d x]).length - (1 + k)) 0),
        (stack ++ [ctrl_ddq K_p K_d x]).getD
          ((stack ++ [ctrl_ddq K_p K_d x]).length - (1 + k)) 0,
        ctrl_ddq K_p K_d x, (stack ++ [ctrl_ddq K_p K_d x]).length⟩ :: tail',
        by rw [heq, List.append_assoc]; rfl, ?_, ?_⟩
      · intro hf
        obtain ⟨hlen', hok'⟩ := htrue hf
        refine ⟨by simp [hlen'], ?_⟩
        intro t ht
        cases t with
        | zero => simpa [preState_zero] using hdiv
        | succ t =>
          rw [preState_cons]
          exact hok' t (by simpa using ht)
      · intro hf
        obtain ⟨hlen', hdiv', hok'⟩ := hfalse hf
        refine ⟨by simpa using hlen', ?_, ?_⟩
        · rw [List.length_cons, preState_cons]
          exact hdiv'
        · intro t ht
          cases t with
          | zero => simpa [preState_zero] using hdiv
          | succ t =>
            rw [preState_cons]
            exact hok' t (by simpa using ht)

/-- **C3.** Each tick first tests `abs(phi_1) > max_angle_rad` on the current
state, before integrating.  If the test ever fires, the run stops immediately
with `finish_flag = False` and fewer than `n = round(run_time / Ts)` samples
(none appended for the diverging tick); otherwise all `n` ticks run and
`finish_flag = True`. -/
theorem divergence_check (step : ℕ → Vec4 → ℚ → Vec4) (x_0 : Vec4)
    (K_p K_d delay Ts run_time max_angle_rad : ℚ) :
    ((PD_CL_Simulator step x_0 K_p K_d delay Ts run_time
        max_angle_rad).finish_flag = true →
      (PD_CL_Simulator step x_0 K_p K_d delay Ts run_time
        max_angle_rad).data_stream.length = natRound (run_time / Ts) ∧
      ∀ t, t < (PD_CL_Simulator step x_0 K_p K_d delay Ts run_time
          max_angle_rad).data_stream.length →
        ¬ max_angle_rad < |preState x_0 (PD_CL_Simulator step x_0 K_p K_d
          delay Ts run_time max_angle_rad).data_stream t 0|) ∧
    ((PD_CL_Simulator step x_0 K_p K_d delay Ts run_time
        max_angle_rad).finish_flag = false →
      (PD_CL_Simulator step x_0 K_p K_d delay Ts run_time
        max_angle_rad).data_stream.length < natRound (run_time / Ts) ∧
      max_angle_rad < |preState x_0 (PD_CL_Simulator step x_0 K_p K_d delay
        Ts run_time max_angle_rad).data_stream
        (PD_CL_Simulator step x_0 K_p K_d delay Ts run_time
          max_angle_rad).data_stream.length 0| ∧
      ∀ t, t < (PD_CL_Simulator step x_0 K_p K_d delay Ts run_time
          max_angle_rad).data_stream.length →
        ¬ max_angle_rad < |preState x_0 (PD_CL_Simulator step x_0 K_p K_d
          delay Ts run_time max_angle_rad).data_stream t 0|) := by
  obtain ⟨tail, heq, htrue, hfalse⟩ := simLoop_divergence step K_p K_d
    max_angle_rad (natRound (delay / Ts)) (natRound (run_time / Ts)) 0 x_0
    (List.replicate (natRound (delay / Ts)) 0) []
  rw [List.nil_append] at heq
  constructor
  · intro hf
    simp only [PD_CL_Simulator] at hf ⊢
    rw [heq]
    exact htrue hf
  · intro hf
    simp only [PD_CL_Simulator] at hf ⊢
    rw [heq]
    exact hfalse hf

theorem divergence_check_witness :
    (PD_CL_Simulator step0 x0w 1 0 1 1 2 1).data_stream.length =
      natRound ((2 : ℚ) / 1) :=
  ((divergence_check step0 x0w 1 0 1 1 2 1).1 (by decide)).1

/-! ## Empty traces and the scoring division (claims C10 and C2) -/

theorem simLoop_length_ge (step : ℕ → Vec4 → ℚ → Vec4)
    (K_p K_d mx : ℚ) (k : ℕ) :
    ∀ (fuel i : ℕ) (x : Vec4) (stack : List ℚ) (acc : List StreamEntry),
      acc.length ≤ (simLoop step K_p K_d mx k fuel i x stack acc).1.length := by
  intro fuel
  induction fuel with
  | zero =>
    intro i x stack acc
    simp [simLoop]
  | succ fuel ih =>
    intro i x stack acc
    by_cases hdiv : mx < |x 0|
    · simp [simLoop, hdiv]
    · simp only [simLoop, if_neg hdiv]
      exact le_trans (by simp) (ih _ _ _ _)

theorem simLoop_nonempty (step : ℕ → Vec4 → ℚ → Vec4)
    (K_p K_d mx : ℚ) (k fuel i : ℕ) (x : Vec4) (stack : List ℚ)
    (acc : List StreamEntry) (hdiv : ¬ mx < |x 0|) (hfuel : 1 ≤ fuel) :
    acc.length < (simLoop step K_p K_d mx k fuel i x stack acc).1.length := by
  obtain ⟨m, rfl⟩ : ∃ m, fuel = m + 1 := ⟨fuel - 1, by omega⟩
  simp only [simLoop, if_neg hdiv]
  exact lt_of_lt_of_le (by simp) (simLoop_length_ge step K_p K_d mx k m _ _ _ _)

/-- A run's trace is empty iff the initial state already violates the angle
limit (given that at least one tick is scheduled). -/
theorem trace_empty_iff (step : ℕ → Vec4 → ℚ → Vec4) (x_0 : Vec4)
    (K_p K_d delay Ts run_time max_angle_rad : ℚ)
    (hn : 1 ≤ natRound (run_time / Ts)) :
    (PD_CL_Simulator step x_0 K_p K_d delay Ts run_time
        max_angle_rad).data_stream = [] ↔
      max_angle_rad < |x_0 0| := by
  obtain ⟨m, hm⟩ : ∃ m, natRound (run_time / Ts) = m + 1 :=
    ⟨natRound (run_time / Ts) - 1, by omega⟩
  simp only [PD_CL_Simulator]
  rw [hm]
  constructor
  · intro hempty
    by_contra hdiv
    have hlt := simLoop_nonempty step K_p K_d max_angle_rad
      (natRound (delay / Ts)) (m + 1) 0 x_0
      (List.replicate (natRound (delay / Ts)) 0) [] hdiv (Nat.le_add_left 1 m)
    rw [hempty] at hlt
    simp at hlt
  · intro hdiv
    simp [simLoop, hdiv]

theorem map_scores_eq_none_iff (simTs : ℚ) (runs : List RunResult) :
    map_scores simTs runs = none ↔ ∃ r ∈ runs, r.data_stream = [] := by
  induction runs with
  | nil => simp [map_scores]
  | cons r rest ih =>
    by_cases h : r.data_stream.length = 0
    · have hempty : r.data_stream = [] := List.length_eq_zero.mp h
      have hms : map_scores simTs (r :: rest) = none := by
        rw [map_scores, score_run, if_pos h]
      rw [hms]
      exact iff_of_true rfl ⟨r, List.mem_cons_self r rest, hempty⟩
    · have hne : r.data_stream ≠ [] := fun hh => h (by simp [hh])
      simp only [map_scores, score_run, if_neg h]
      rw [Option.map_eq_none', ih]
      constructor
      · rintro ⟨r', hr', he⟩
        exact ⟨r', List.mem_cons_of_mem r hr', he⟩
      · rintro ⟨r', hr', he⟩
        rcases List.mem_cons.mp hr' with rfl | hmem
        · exact absurd he hne
        · exact ⟨r', hmem, he⟩

theorem map_scores_eq_some (simTs : ℚ) (runs : List RunResult)
    (h : ∀ r ∈ runs, r.data_stream ≠ []) :
    ∃ ys, map_scores simTs runs = some ys ∧ ys.length = runs.length ∧
      ∀ s ∈ ys, ∃ r ∈ runs, score_run simTs r = some s := by
  induction runs with
  | nil =>
    exact ⟨[], rfl, rfl, by intro s hs; simp at hs⟩
  | cons r rest ih =>
    have hr : r.data_stream ≠ [] := h r (List.mem_cons_self r rest)
    have hlen : ¬ r.data_stream.length = 0 :=
      fun hh => hr (List.length_eq_zero.mp hh)
    obtain ⟨ys, hys, hl, hmem⟩ := ih fun r' hr' => h r' (List.mem_cons_of_mem r hr')
    obtain ⟨s, hs⟩ : ∃ s, score_run simTs r = some s :=
      ⟨_, by rw [score_run, if_neg hlen]⟩
    refine ⟨s :: ys, ?_, by simp [hl], ?_⟩
    · simp only [map_scores, hs, hys, Option.map_some']
    · intro s' hs'
      rcases List.mem_cons.mp hs' with rfl | hmem2
      · exact ⟨r, List.mem_cons_self r rest, hs⟩
      · obtain ⟨r', hr', hsc⟩ := hmem s' hmem2
        exact ⟨r', List.mem_cons_of_mem r hr', hsc⟩

/-- A scored entry's metric field is the squared-angle sum over its own
stream divided by its sample count. -/
theorem score_run_metric (simTs : ℚ) (r : RunResult) (s : ScoredResult)
    (h : score_run simTs r = some s) :
    s.phi1_square_sum = sumSqPhi1 s.data_stream / (s.data_stream.length : ℚ) := by
  rw [score_run] at h
  by_cases hl : r.data_stream.length = 0
  · rw [if_pos hl] at h
    exact absurd h (by simp)
  · rw [if_neg hl] at h
    have hfields := Option.some.inj h
    subst hfields
    rfl

/-- **C10.** Scoring divides by the trace length with no emptiness guard:
`calc_PD_scores` raises `ZeroDivisionError` (returns `none`) exactly when
some run has an empty trace; a run's trace is empty exactly when the initial
state already violates the angle limit (at least one tick scheduled); and
scoring is total (returns a ranked list) precisely on run sets whose traces
are all non-empty. -/
theorem empty_trace_scoring (step : ℕ → Vec4 → ℚ → Vec4) (x_0 : Vec4)
    (Kp_phi1_range Kd_phi1_range : List ℚ)
    (delay Ts run_time max_angle_rad simTs : ℚ)
    (hn : 1 ≤ natRound (run_time / Ts)) :
    (calc_PD_scores (iterate_in_range step x_0 Kp_phi1_range Kd_phi1_range
        delay Ts run_time max_angle_rad) simTs = none ↔
      ∃ r ∈ iterate_in_range step x_0 Kp_phi1_range Kd_phi1_range delay Ts
        run_time max_angle_rad, r.data_stream = []) ∧
    (∀ r ∈ iterate_in_range step x_0 Kp_phi1_range Kd_phi1_range delay Ts
        run_time max_angle_rad,
      (r.data_stream = [] ↔ max_angle_rad < |x_0 0|)) ∧
    ((∀ r ∈ iterate_in_range step x_0 Kp_phi1_range Kd_phi1_range delay Ts
        run_time max_angle_rad, r.data_stream ≠ []) →
      ∃ l, calc_PD_scores (iterate_in_range step x_0 Kp_phi1_range
        Kd_phi1_range delay Ts run_time max_angle_rad) simTs = some l) := by
  refine ⟨?_, ?_, ?_⟩
  · rw [calc_PD_scores, Option.map_eq_none', map_scores_eq_none_iff]
  · intro r hr
    obtain ⟨p, hp, rfl⟩ := List.mem_map.mp hr
    exact trace_empty_iff step x_0 p.1 p.2 delay Ts run_time max_angle_rad hn
  · intro hne
    obtain ⟨ys, hys, -, -⟩ := map_scores_eq_some simTs _ hne
    exact ⟨ys.insertionSort scoreLE, by rw [calc_PD_scores, hys, Option.map_some']⟩

theorem empty_trace_scoring_witness :
    calc_PD_scores (iterate_in_range step0 x0w [1] [0] 1 1 2 1) 1 = none ↔
      ∃ r ∈ iterate_in_range step0 x0w [1] [0] 1 1 2 1, r.data_stream = [] :=
  (empty_trace_scoring step0 x0w [1] [0] 1 1 2 1 1 (by decide)).1

/-! ## The gain-space search and the ranking (claim C2) -/

theorem args_list_length (Kp_phi1_range Kd_phi1_range : List ℚ) :
    (args_list Kp_phi1_range Kd_phi1_range).length =
      Kp_phi1_range.length * Kd_phi1_range.length := by
  induction Kp_phi1_range with
  | nil => simp [args_list]
  | cons a l ih =>
    simp only [args_list, List.flatMap_cons, List.length_append,
      List.length_map, List.length_cons]
    rw [show (l.flatMap fun Kp => Kd_phi1_range.map fun Kd => (Kp, Kd)) =
      args_list l Kd_phi1_range from rfl, ih]
    ring

/-- **C2.** The grid search yields exactly `m · n` runs (one per pair of the
row-major Cartesian product); when every trace is non-empty, `calc_PD_scores`
returns a ranked list that is a permutation of the scored runs, has length
`m · n`, is sorted ascending in the mean-squared-angle metric (adjacent
entries are ordered), and every entry's metric is
`(Σ phi1²) / sample_count` over its own trace.  The sort model
(`List.insertionSort`) is stable, matching Python's `sorted`. -/
theorem gain_grid_search_ranked (step : ℕ → Vec4 → ℚ → Vec4) (x_0 : Vec4)
    (Kp_phi1_range Kd_phi1_range : List ℚ)
    (delay Ts run_time max_angle_rad simTs : ℚ)
    (h : ∀ r ∈ iterate_in_range step x_0 Kp_phi1_range Kd_phi1_range delay Ts
      run_time max_angle_rad, r.data_stream ≠ []) :
    (iterate_in_range step x_0 Kp_phi1_range Kd_phi1_range delay Ts run_time
      max_angle_rad).length = Kp_phi1_range.length * Kd_phi1_range.length ∧
    ∃ ys l,
      map_scores simTs (iterate_in_range step x_0 Kp_phi1_range Kd_phi1_range
        delay Ts run_time max_angle_rad) = some ys ∧
      calc_PD_scores (iterate_in_range step x_0 Kp_phi1_range Kd_phi1_range
        delay Ts run_time max_angle_rad) simTs = some l ∧
      l.Perm ys ∧
      l.length = Kp_phi1_range.length * Kd_phi1_range.length ∧
      (∀ i, i + 1 < l.length →
        (l.getD i dummyScored).phi1_square_sum ≤
          (l.getD (i + 1) dummyScored).phi1_square_sum) ∧
      (∀ s ∈ l, s.phi1_square_sum =
        sumSqPhi1 s.data_stream / (s.data_stream.length : ℚ)) := by
  have hruns : (iterate_in_range step x_0 Kp_phi1_range Kd_phi1_range delay Ts
      run_time max_angle_rad).length =
      Kp_phi1_range.length * Kd_phi1_range.length := by
    rw [iterate_in_range, List.length_map, args_list_length]
  refine ⟨hruns, ?_⟩
  obtain ⟨ys, hys, hlys, hmem⟩ := map_scores_eq_some simTs _ h
  refine ⟨ys, ys.insertionSort scoreLE,
    hys, by rw [calc_PD_scores, hys, Option.map_some'], List.perm_insertionSort scoreLE ys,
    by rw [List.length_insertionSort, hlys, hruns], ?_, ?_⟩
  · intro i hi
    have h1 : i < (ys.insertionSort scoreLE).length := by omega
    rw [List.getD_eq_getElem _ _ h1, List.getD_eq_getElem _ _ hi]
    have hp := List.pairwise_iff_get.mp (List.sorted_insertionSort scoreLE ys)
      ⟨i, h1⟩ ⟨i + 1, hi⟩ (by exact Nat.lt_succ_self i)
    simpa [List.get_eq_getElem, scoreLE] using hp
  · intro s hs
    have hs2 : s ∈ ys := (List.mem_insertionSort scoreLE).mp hs
    obtain ⟨r, -, hsc⟩ := hmem s hs2
    exact score_run_metric simTs r s hsc

theorem gain_grid_search_ranked_witness :
    (iterate_in_range step0 x0w [1, 2] [0] 1 1 2 1).length =
      ([1, 2] : List ℚ).length * ([0] : List ℚ).length :=
  (gain_grid_search_ranked step0 x0w [1, 2] [0] 1 1 2 1 1 (by decide)).1

/-! ## The RK4 integrator (claim C4)

`rk4_step` from `threads_/numsim/libs/numsim_steps.py`: the derivative
function `f`, the system constants and the state are explicit arguments; the
source extracts the state array from `x[0]`, so `x` is modelled as a pair
whose first component is the state. -/

def rk4_step {C : Type} (f : C → Vec4 → ℚ → Vec4) (sys_consts : C)
    (x : Vec4 × Vec4) (u : ℚ) (dt : ℚ) : Vec4 × Vec4 :=
  let phi_frame_array := x.1
  let k1 := f sys_consts phi_frame_array u
  let k2 := f sys_consts (fun j => phi_frame_array j + 0.5 * k1 j * dt) u
  let k3 := f sys_consts (fun j => phi_frame_array j + 0.5 * k2 j * dt) u
  let k4 := f sys_consts (fun j => phi_frame_array j + k3 j * dt) u
  let dx := fun j => (k1 j + 2 * k2 j + 2 * k3 j + k4 j) / 6
  (fun j => phi_frame_array j + dx j * dt, dx)

/-- **C4.** For every system constants, state, input and non-zero `dt`, the
integrator computes the classical 4-stage Runge–Kutta update
`k1 = f(x)`, `k2 = f(x + dt/2·k1)`, `k3 = f(x + dt/2·k2)`,
`k4 = f(x + dt·k3)`, `x' = x + dt/6·(k1 + 2k2 + 2k3 + k4)`; consequently a
constant-zero derivative function returns the input state unchanged. -/
theorem rk4_step_classical {C : Type} (f : C → Vec4 → ℚ → Vec4) (c : C)
    (x : Vec4 × Vec4) (u dt : ℚ) (_hdt : dt ≠ 0) :
    (rk4_step f c x u dt =
      (let k1 := f c x.1 u
       let k2 := f c (fun j => x.1 j + dt / 2 * k1 j) u
       let k3 := f c (fun j => x.1 j + dt / 2 * k2 j) u
       let k4 := f c (fun j => x.1 j + dt * k3 j) u
       (fun j => x.1 j + dt / 6 * (k1 j + 2 * k2 j + 2 * k3 j + k4 j),
        fun j => (k1 j + 2 * k2 j + 2 * k3 j + k4 j) / 6))) ∧
    ((∀ c' y v, f c' y v = fun _ => 0) →
      rk4_step f c x u dt = (x.1, fun _ => 0)) := by
  constructor
  · have h1 : (fun j => x.1 j + 0.5 * (f c x.1 u) j * dt) =
        (fun j => x.1 j + dt / 2 * (f c x.1 u) j) := by
      funext j
      ring
    rw [rk4_step, h1]
    have h2 : (fun j => x.1 j +
        0.5 * (f c (fun j => x.1 j + dt / 2 * (f c x.1 u) j) u) j * dt) =
        (fun j => x.1 j +
          dt / 2 * (f c (fun j => x.1 j + dt / 2 * (f c x.1 u) j) u) j) := by
      funext j
      ring
    rw [h2]
    have h3 : (fun j => x.1 j +
        (f c (fun j => x.1 j + dt / 2 *
          (f c (fun j => x.1 j + dt / 2 * (f c x.1 u) j) u) j) u) j * dt) =
        (fun j => x.1 j +
          dt * (f c (fun j => x.1 j + dt / 2 *
            (f c (fun j => x.1 j + dt / 2 * (f c x.1 u) j) u) j) u) j) := by
      funext j
      ring
    rw [h3]
    refine Prod.ext ?_ rfl
    funext j
    dsimp only
    ring
  · intro hz
    rw [rk4_step, hz, hz, hz, hz]
    refine Prod.ext ?_ ?_
    · funext j
      dsimp only
      ring
    · funext j
      dsimp only
      ring

theorem rk4_step_zero_witness :
    rk4_step (fun _ _ _ => (fun _ => (0 : ℚ))) () (x0w, x0w) 0 1 =
      (x0w, fun _ => 0) :=
  (rk4_step_classical (fun _ _ _ => (fun _ => (0 : ℚ))) () (x0w, x0w) 0 1
    one_ne_zero).2 fun _ _ _ => rfl

/-! ## The worker-pool chunk size (claim C9) -/

/-- `chunk_size = len(args_list) // (usable_cores or 1)` from
`_iterate_in_range` (Python `or` turns a zero core count into `1`). -/
def chunk_size (total usable_cores : ℕ) : ℕ :=
  total / (if usable_cores = 0 then 1 else usable_cores)

/-- **C9 counterexample.** For the 5-element gain grid `[0,1,2,3,4] × [0]`
and a pool of 2 workers, the code's chunk size is `5 // 2 = 2`, not
`⌈5 / 2⌉ = 3` as the claim states. -/
theorem chunk_size_not_ceil :
    chunk_size (args_list [0, 1, 2, 3, 4] [0]).length 2 ≠
      ((args_list [0, 1, 2, 3, 4] [0]).length + 2 - 1) / 2 := by
  decide

/-- **C9 (amended).** The scheduler passes `pool.map` the chunk size
`⌊T / p⌋` (floor division), with `p` replaced by `1` when the usable-core
count is zero — not `⌈T / p⌉`. -/
theorem chunk_size_floor (Kp_phi1_range Kd_phi1_range : List ℚ)
    (usable_cores : ℕ) (h : 1 ≤ usable_cores) :
    chunk_size (args_list Kp_phi1_range Kd_phi1_range).length usable_cores =
      Kp_phi1_range.length * Kd_phi1_range.length / usable_cores := by
  rw [chunk_size, if_neg (by omega), args_list_length]

theorem chunk_size_floor_witness :
    chunk_size (args_list [0, 1, 2, 3, 4] [0]).length 2 =
      ([0, 1, 2, 3, 4] : List ℚ).length * ([0] : List ℚ).length / 2 :=
  chunk_size_floor [0, 1, 2, 3, 4] [0] 2 (by decide)

/-! ## Exception propagation through the worker pool (claim C5)

Fallible variant of the closed-loop simulator: the plant update may raise
(e.g. a numerical exception inside the equations of motion).  Neither
`_PD_CL_Simulator` nor `_iterate_in_range` contains a `try/except`, so an
exception propagates out of the tick loop, out of the task, and
`multiprocessing.Pool.map` re-raises it in the parent, discarding the
sibling results. -/

def simLoopE (step : ℕ → Vec4 → ℚ → Except String Vec4)
    (K_p K_d max_angle_rad : ℚ) (delay_in_frames : ℕ) :
    ℕ → ℕ → Vec4 → List ℚ → List StreamEntry →
      Except String (List StreamEntry × Bool)
  | 0, _, _, _, acc => .ok (acc, true)
  | fuel + 1, i, x, stack, acc =>
    if max_angle_rad < |x 0| then .ok (acc, false)
    else
      let ddq := ctrl_ddq K_p K_d x
      let ddq_stack := stack ++ [ddq]
      let u := ddq_stack.getD (ddq_stack.length - (1 + delay_in_frames)) 0
      match step i x u with
      | .error e => .error e
      | .ok x' => simLoopE step K_p K_d max_angle_rad delay_in_frames fuel
          (i + 1) x' ddq_stack (acc ++ [⟨x', u, ddq, ddq_stack.length⟩])

def PD_CL_SimulatorE (step : ℕ → Vec4 → ℚ → Except String Vec4) (x_0 : Vec4)
    (K_p K_d delay Ts run_time max_angle_rad : ℚ) : Except String RunResult :=
  match simLoopE step K_p K_d max_angle_rad (natRound (delay / Ts))
    (natRound (run_time / Ts)) 0 x_0
    (List.replicate (natRound (delay / Ts)) 0) [] with
  | .error e => .error e
  | .ok r => .ok ⟨K_p, K_d, r.1, r.2⟩

/-- `multiprocessing.Pool.map` semantics: results are returned in submission
order, and if any task raises, `map` re-raises that exception in the caller
and no result list is returned. -/
def pool_mapE (f : ℚ × ℚ → Except String RunResult) :
    List (ℚ × ℚ) → Except String (List RunResult)
  | [] => .ok []
  | a :: rest =>
    match f a with
    | .error e => .error e
    | .ok r =>
      match pool_mapE f rest with
      | .error e => .error e
      | .ok rs => .ok (r :: rs)

def iterate_in_rangeE (step : ℕ → Vec4 → ℚ → Except String Vec4) (x_0 : Vec4)
    (Kp_phi1_range Kd_phi1_range : List ℚ)
    (delay Ts run_time max_angle_rad : ℚ) : Except String (List RunResult) :=
  pool_mapE (fun p => PD_CL_SimulatorE step x_0 p.1 p.2 delay Ts run_time
    max_angle_rad) (args_list Kp_phi1_range Kd_phi1_range)

/-- A plant update raising `ZeroDivisionError` whenever the applied input is
`-1` (an ill-conditioned denominator hit for that particular gain). -/
def stepE : ℕ → Vec4 → ℚ → Except String Vec4 := fun _ _ u =>
  if u = -1 then .error "ZeroDivisionError: float division by zero"
  else .ok fun _ => 0

/-- Initial state `phi1 = 1`, all other coordinates `0`. -/
def x0e : Vec4 := fun j => if j = 0 then 1 else 0

/-- **C5 counterexample.**  On the grid `[1, 2] × [0]` the first task raises
(its gain produces the input `-1`), and the whole sweep aborts with that
exception — even though the sibling task alone would complete — instead of
recording the failure as a distinct `RunResult` and keeping the sibling's
result. -/
theorem pool_aborts_on_exception :
    iterate_in_rangeE stepE x0e [1, 2] [0] 0 1 1 2 =
      Except.error "ZeroDivisionError: float division by zero" ∧
    (PD_CL_SimulatorE stepE x0e 2 0 0 1 1 2).isOk = true := by
  constructor
  · decide
  · decide

theorem simLoopE_ok (step : ℕ → Vec4 → ℚ → Except String Vec4)
    (K_p K_d max_angle_rad : ℚ) (delay_in_frames : ℕ)
    (h : ∀ i x u, ∃ y, step i x u = .ok y) :
    ∀ (fuel i : ℕ) (x : Vec4) (stack : List ℚ) (acc : List StreamEntry),
      ∃ r, simLoopE step K_p K_d max_angle_rad delay_in_frames fuel i x stack
        acc = .ok r := by
  intro fuel
  induction fuel with
  | zero =>
    intro i x stack acc
    exact ⟨(acc, true), rfl⟩
  | succ fuel ih =>
    intro i x stack acc
    by_cases hdiv : max_angle_rad < |x 0|
    · exact ⟨(acc, false), by simp [simLoopE, hdiv]⟩
    · simp only [simLoopE, if_neg hdiv]
      rcases h i x ((stack ++ [ctrl_ddq K_p K_d x]).getD
        ((stack ++ [ctrl_ddq K_p K_d x]).length - (1 + delay_in_frames)) 0)
        with ⟨y, hy⟩
      rw [hy]
      exact ih _ _ _ _

theorem PD_CL_SimulatorE_ok (step : ℕ → Vec4 → ℚ → Except String Vec4)
    (x_0 : Vec4) (K_p K_d delay Ts run_time max_angle_rad : ℚ)
    (h : ∀ i x u, ∃ y, step i x u = .ok y) :
    ∃ r, PD_CL_SimulatorE step x_0 K_p K_d delay Ts run_time max_angle_rad =
      .ok r := by
  obtain ⟨r, hr⟩ := simLoopE_ok step K_p K_d max_angle_rad
    (natRound (delay / Ts)) h (natRound (run_time / Ts)) 0 x_0
    (List.replicate (natRound (delay / Ts)) 0) []
  exact ⟨⟨K_p, K_d, r.1, r.2⟩, by rw [PD_CL_SimulatorE, hr]⟩

theorem pool_mapE_ok (f : ℚ × ℚ → Except String RunResult)
    (l : List (ℚ × ℚ)) (h : ∀ a ∈ l, ∃ r, f a = .ok r) :
    ∃ rs, pool_mapE f l = .ok rs ∧ rs.length = l.length := by
  induction l with
  | nil => exact ⟨[], rfl, rfl⟩
  | cons a rest ih =>
    obtain ⟨r, hr⟩ := h a (List.mem_cons_self a rest)
    obtain ⟨rs, hrs, hlen⟩ := ih fun a' ha' => h a' (List.mem_cons_of_mem a ha')
    exact ⟨r :: rs, by rw [pool_mapE, hr, hrs], by simp [hlen]⟩

/-- **C5 (amended).** Only when no task raises does the sweep return results
— then one per gain pair, `m · n` in total (runs that merely diverge are
normal results with `finish_flag = False`, not exceptions).  A raising task
makes `pool.map` re-raise, aborting the whole sweep with no results, as the
counterexample shows. -/
theorem pool_map_ok_of_no_exception (step : ℕ → Vec4 → ℚ → Except String Vec4)
    (x_0 : Vec4) (Kp_phi1_range Kd_phi1_range : List ℚ)
    (delay Ts run_time max_angle_rad : ℚ)
    (h : ∀ i x u, ∃ y, step i x u = .ok y) :
    ∃ rs, iterate_in_rangeE step x_0 Kp_phi1_range Kd_phi1_range delay Ts
        run_time max_angle_rad = .ok rs ∧
      rs.length = Kp_phi1_range.length * Kd_phi1_range.length := by
  obtain ⟨rs, hrs, hlen⟩ := pool_mapE_ok
    (fun p => PD_CL_SimulatorE step x_0 p.1 p.2 delay Ts run_time
      max_angle_rad)
    (args_list Kp_phi1_range Kd_phi1_range)
    (fun a _ => PD_CL_SimulatorE_ok step x_0 a.1 a.2 delay Ts run_time
      max_angle_rad h)
  exact ⟨rs, hrs, by rw [hlen, args_list_length]⟩

/-- A plant update that never raises. -/
def stepOk : ℕ → Vec4 → ℚ → Except String Vec4 := fun _ x _ => .ok x

theorem pool_map_ok_witness :
    ∃ rs, iterate_in_rangeE stepOk x0w [1, 2] [0] 1 1 2 1 = .ok rs ∧
      rs.length = ([1, 2] : List ℚ).length * ([0] : List ℚ).length :=
  pool_map_ok_of_no_exception stepOk x0w [1, 2] [0] 1 1 2 1
    fun _ x _ => ⟨x, rfl⟩

/-! ## Delay-augmented synthesis (claims C6 and C7)

Matrices are `ℕ → ℕ → ℚ` functions with dimensions carried alongside;
entries outside the intended extent are immaterial.  The block assignments
of `_extend_with_delay` (h_inf_delay.py) and of the inline construction in
`_dlqr_delay_compensation` (lqr_delay.py) write into pairwise-disjoint
regions of an all-zeros matrix and are rendered as an if-chain.  The
`0 < delay_steps` and `1 < delay_steps` guards mirror the lqr version; the
h_inf version omits the first guard, which only differs for
`delay_steps = 0` entries beyond the matrix extent. -/

abbrev MatQ := ℕ → ℕ → ℚ

/-- `total_states = n_states + delay_steps * n_inputs`. -/
def total_states (n_states n_inputs delay_steps : ℕ) : ℕ :=
  n_states + delay_steps * n_inputs

/-- The extended `A` matrix (`A_ext` / `A_delay`). -/
def A_delay_ext (A_d B_d : MatQ) (n_states n_inputs delay_steps : ℕ) :
    MatQ := fun i j =>
  if i < n_states ∧ j < n_states then A_d i j
  else if 0 < delay_steps ∧ i < n_states ∧ n_states ≤ j ∧
      j < n_states + n_inputs then B_d i (j - n_states)
  else if 1 < delay_steps ∧ n_states ≤ i ∧
      i < n_states + (delay_steps - 1) * n_inputs ∧
      n_states + n_inputs ≤ j ∧ j < n_states + delay_steps * n_inputs ∧
      i - n_states = j - (n_states + n_inputs) then 1
  else 0

/-- The extended `B` matrix (`B_ext` / `B_delay`):
`B_ext[n + (d-1)·p :, :] = eye(p)`. -/
def B_delay_ext (n_states n_inputs delay_steps : ℕ) : MatQ := fun i j =>
  if n_states + (delay_steps - 1) * n_inputs ≤ i ∧
      i < n_states + delay_steps * n_inputs ∧ j < n_inputs ∧
      i - (n_states + (delay_steps - 1) * n_inputs) = j then 1
  else 0

/-- `Q_extended`: `Q` in the top-left `n × n` block, zeros elsewhere. -/
def Q_extended_mat (Q : MatQ) (n_states : ℕ) : MatQ := fun i j =>
  if i < n_states ∧ j < n_states then Q i j else 0

def matTrans (A : MatQ) : MatQ := fun i j => A j i

def matMulQ (A B : MatQ) (inner : ℕ) : MatQ := fun i j =>
  ∑ t ∈ Finset.range inner, A i t * B t j

def matAddQ (A B : MatQ) : MatQ := fun i j => A i j + B i j

/-- `_dlqr_delay_compensation` from `lqr_delay.py`.  The purely numerical
library routines are abstract parameters: `eigvals` for
`np.linalg.eigvals` (matrix and its dimension), `inv` for `np.linalg.inv`,
`solve_dare` for `scipy.linalg.solve_discrete_are` (fallible).  The second
component of the result records whether the Riccati solver was invoked
(true exactly on the branch containing the `solve_discrete_are` call). -/
def dlqr_delay_compensation (eigvals : MatQ → ℕ → List ℚ)
    (inv : MatQ → ℕ → MatQ)
    (solve_dare : MatQ → MatQ → MatQ → MatQ → Except String MatQ)
    (A_d B_d Q R : MatQ) (n_states n_inputs delay_steps : ℕ) :
    Except String MatQ × Bool :=
  let ts := total_states n_states n_inputs delay_steps
  let A_delay := A_delay_ext A_d B_d n_states n_inputs delay_steps
  let B_delay := B_delay_ext n_states n_inputs delay_steps
  let Q_extended := Q_extended_mat Q n_states
  if ¬ (∀ e ∈ eigvals Q_extended ts, 0 ≤ e) then
    (.error "Q_extended is not positive semi-definite.", false)
  else if ¬ (∀ e ∈ eigvals R n_inputs, 0 < e) then
    (.error "R is not positive definite.", false)
  else
    match solve_dare A_delay B_delay Q_extended R with
    | .error e => (.error ("Riccati equation solver failed: " ++ e), true)
    | .ok P =>
      let K_extended := matMulQ
        (inv (matAddQ R (matMulQ (matMulQ (matTrans B_delay) P ts)
          B_delay ts)) n_inputs)
        (matMulQ (matMulQ (matTrans B_delay) P ts) A_delay ts) n_inputs
      (.ok fun i j => if j < n_states then K_extended i j else 0, true)

/-- **C6.** If the extended state-cost matrix has a negative eigenvalue, the
call fails with the descriptive `ValueError` before the Riccati solver is
invoked; likewise when `R` is not positive definite (checked second); and
the Riccati solve is attempted exactly when both definiteness checks
pass. -/
theorem dlqr_validates_before_riccati (eigvals : MatQ → ℕ → List ℚ)
    (inv : MatQ → ℕ → MatQ)
    (solve_dare : MatQ → MatQ → MatQ → MatQ → Except String MatQ)
    (A_d B_d Q R : MatQ) (n_states n_inputs delay_steps : ℕ) :
    ((∃ e ∈ eigvals (Q_extended_mat Q n_states)
        (total_states n_states n_inputs delay_steps), e < 0) →
      dlqr_delay_compensation eigvals inv solve_dare A_d B_d Q R n_states
          n_inputs delay_steps =
        (.error "Q_extended is not positive semi-definite.", false)) ∧
    ((∀ e ∈ eigvals (Q_extended_mat Q n_states)
        (total_states n_states n_inputs delay_steps), 0 ≤ e) →
      (∃ e ∈ eigvals R n_inputs, ¬ 0 < e) →
      dlqr_delay_compensation eigvals inv solve_dare A_d B_d Q R n_states
          n_inputs delay_steps =
        (.error "R is not positive definite.", false)) ∧
    ((dlqr_delay_compensation eigvals inv solve_dare A_d B_d Q R n_states
        n_inputs delay_steps).2 = true ↔
      (∀ e ∈ eigvals (Q_extended_mat Q n_states)
        (total_states n_states n_inputs delay_steps), 0 ≤ e) ∧
      (∀ e ∈ eigvals R n_inputs, 0 < e)) := by
  refine ⟨?_, ?_, ?_⟩
  · rintro ⟨e, he, hneg⟩
    have hq : ¬ (∀ e ∈ eigvals (Q_extended_mat Q n_states)
        (total_states n_states n_inputs delay_steps), 0 ≤ e) :=
      fun hall => absurd (hall e he) (not_le.mpr hneg)
    simp only [dlqr_delay_compensation]
    rw [if_pos hq]
  · intro hq hr
    have hr' : ¬ (∀ e ∈ eigvals R n_inputs, 0 < e) := by
      rintro hall
      obtain ⟨e, he, hnp⟩ := hr
      exact hnp (hall e he)
    simp only [dlqr_delay_compensation]
    rw [if_neg (not_not_intro hq), if_pos hr']
  · by_cases hq : ∀ e ∈ eigvals (Q_extended_mat Q n_states)
        (total_states n_states n_inputs delay_steps), 0 ≤ e
    · by_cases hr : ∀ e ∈ eigvals R n_inputs, 0 < e
      · simp only [dlqr_delay_compensation]
        rw [if_neg (not_not_intro hq), if_neg (not_not_intro hr)]
        cases hsd : solve_dare
            (A_delay_ext A_d B_d n_states n_inputs delay_steps)
            (B_delay_ext n_states n_inputs delay_steps)
            (Q_extended_mat Q n_states) R with
        | error e => exact iff_of_true rfl ⟨hq, hr⟩
        | ok P => exact iff_of_true rfl ⟨hq, hr⟩
      · simp only [dlqr_delay_compensation]
        rw [if_neg (not_not_intro hq), if_pos hr]
        exact iff_of_false (by simp) fun hh => hr hh.2
    · simp only [dlqr_delay_compensation]
      rw [if_pos hq]
      exact iff_of_false (by simp) fun hh => hq hh.1

/-- Eigenvalue oracle reporting a negative eigenvalue for every matrix. -/
def eig0 : MatQ → ℕ → List ℚ := fun _ _ => [-1]

def inv0 : MatQ → ℕ → MatQ := fun A _ => A

def solve0 : MatQ → MatQ → MatQ → MatQ → Except String MatQ :=
  fun _ _ _ _ => .ok fun _ _ => 0

/-- The all-zeros matrix. -/
def Zq : MatQ := fun _ _ => 0

theorem dlqr_validates_witness :
    dlqr_delay_compensation eig0 inv0 solve0 Zq Zq Zq Zq 4 1 2 =
      (.error "Q_extended is not positive semi-definite.", false) :=
  (dlqr_validates_before_riccati eig0 inv0 solve0 Zq Zq Zq Zq 4 1 2).1
    ⟨-1, by decide, by decide⟩

/-- **C7.** For `delay_steps = d ≥ 1`, the delay-augmented state space has
dimension `n + d·p`; the top-left `n × n` block of the extended `A` is
`A_d`; the block coupling the physical states to the newest delay slot
(columns `n .. n+p`) is `B_d`; and the sub-diagonal shift block linking
successive delay slots is the `(d−1)·p` identity. -/
theorem delay_augmentation_blocks (A_d B_d : MatQ)
    (n_states n_inputs delay_steps : ℕ) (hd : 1 ≤ delay_steps) :
    total_states n_states n_inputs delay_steps =
      n_states + delay_steps * n_inputs ∧
    (∀ i j, i < n_states → j < n_states →
      A_delay_ext A_d B_d n_states n_inputs delay_steps i j = A_d i j) ∧
    (∀ i j, i < n_states → j < n_inputs →
      A_delay_ext A_d B_d n_states n_inputs delay_steps i (n_states + j) =
        B_d i j) ∧
    (∀ a b, a < (delay_steps - 1) * n_inputs →
      b < (delay_steps - 1) * n_inputs →
      A_delay_ext A_d B_d n_states n_inputs delay_steps (n_states + a)
        (n_states + n_inputs + b) = if a = b then 1 else 0) := by
  refine ⟨rfl, ?_, ?_, ?_⟩
  · intro i j hi hj
    rw [A_delay_ext, if_pos ⟨hi, hj⟩]
  · intro i j hi hj
    rw [A_delay_ext, if_neg (by omega), if_pos ⟨by omega, hi, by omega, by omega⟩]
    have hsub : n_states + j - n_states = j := by omega
    rw [hsub]
  · intro a b ha hb
    have hpos : 0 < (delay_steps - 1) * n_inputs :=
      lt_of_le_of_lt (Nat.zero_le a) ha
    have hd1 : 0 < delay_steps - 1 := by
      by_contra hcon
      have hz : delay_steps - 1 = 0 := by omega
      rw [hz, Nat.zero_mul] at hpos
      exact absurd hpos (lt_irrefl 0)
    have hd2 : 1 < delay_steps := by omega
    have hsplit : delay_steps * n_inputs =
        (delay_steps - 1) * n_inputs + n_inputs := by
      obtain ⟨m, rfl⟩ : ∃ m, delay_steps = m + 1 := ⟨delay_steps - 1, by omega⟩
      simp [Nat.succ_mul]
    rw [A_delay_ext, if_neg (by omega), if_neg (by omega)]
    by_cases hab : a = b
    · rw [if_pos ⟨hd2, by omega, by omega, by omega, by omega, by omega⟩,
        if_pos hab]
    · rw [if_neg (by omega), if_neg hab]

/-- Concrete `A_d` with distinguishable entries. -/
def Aw : MatQ := fun i j => (i : ℚ) + 7 * j + 1

/-- Concrete `B_d` with distinguishable entries. -/
def Bw : MatQ := fun i j => (i : ℚ) + 11 * j + 2

theorem delay_augmentation_blocks_witness :
    total_states 2 1 3 = 2 + 3 * 1 ∧
    A_delay_ext Aw Bw 2 1 3 0 0 = Aw 0 0 ∧
    A_delay_ext Aw Bw 2 1 3 0 (2 + 0) = Bw 0 0 ∧
    A_delay_ext Aw Bw 2 1 3 (2 + 0) (2 + 1 + 1) =
      if (0 : ℕ) = 1 then 1 else 0 :=
  ⟨(delay_augmentation_blocks Aw Bw 2 1 3 (by decide)).1,
   (delay_augmentation_blocks Aw Bw 2 1 3 (by decide)).2.1 0 0 (by decide)
     (by decide),
   (delay_augmentation_blocks Aw Bw 2 1 3 (by decide)).2.2.1 0 0 (by decide)
     (by decide),
   (delay_augmentation_blocks Aw Bw 2 1 3 (by decide)).2.2.2 0 1 (by decide)
     (by decide)⟩

example : natRound ((1 : ℚ) / 1) = 1 := by decide

example : natRound ((5 : ℚ) / 2) = 2 := by decide

example : natRound ((7 : ℚ) / 2) = 4 := by decide

example : natRound ((-3 : ℚ) / 2) = 0 := by decide

end DIPS
